import Mathlib

/-!
Verification of the IDL parsing module (`src/anchorpy/idl.py`).

The module converts a raw JSON IDL document into a typed schema and
synthesizes instruction discriminants for non-standard programs.  The
definitions below are a shallow embedding of the Python functions:

- JSON type-specification nodes become the inductive `TypeSpec`
  (each node carries exactly one composite marker, as in the source data);
- the resolved types become `IdlType` / `IdlTypeSimple`
  (mirroring the `anchorpy_core.idl` classes used by the source);
- a Python function that can raise an exception is embedded as a function
  into `Option`, with `none` standing for the raised exception
  (in particular, `ty: IdlType` followed by a branch that never assigns
  `ty` raises `UnboundLocalError` at `return ty` / at the later use of
  `ty`, which we model as `none` or, where the stale previous value of the
  local is used, by threading that value explicitly);
- the `print` diagnostics of the source have no semantic content and are
  dropped.
-/

namespace AnchorpyIdl

/-- Scalar kinds, mirroring `anchorpy_core.idl.IdlTypeSimple` members used
by `_resolve_idl_type_simple`. -/
inductive IdlTypeSimple where
  | u8 | i8 | u16 | i16 | u32 | i32 | u64 | i64
  | publicKey | string | bool | bytes
deriving DecidableEq

/-- A raw JSON type-specification node, as traversed by `_resolve_idl_type`.
A node is either a bare tag string or an object with exactly one composite
marker.  A `coption` object may additionally carry a `prefix` sub-marker;
the two shapes are the constructors `coption` (no `prefix` key) and
`coptionPfx` (with the `prefix` value). -/
inductive TypeSpec where
  | str (s : String)
  | array (elem : TypeSpec) (len : Nat)
  | vec (inner : TypeSpec)
  | defined (name : String)
  | option (inner : TypeSpec)
  | hashMap (key : TypeSpec) (val : TypeSpec)
  | coption (inner : TypeSpec)
  | coptionPfx (inner : TypeSpec) (p : TypeSpec)
deriving DecidableEq

/-- Resolved types, mirroring the `anchorpy_core.idl.IdlType` variants
produced by the source (`IdlTypeSimple`, `IdlTypeArray`, `IdlTypeVec`,
`IdlTypeDefined`, `IdlTypeOption`, `IdlTypeGenericLenArray`). -/
inductive IdlType where
  | simple (s : IdlTypeSimple)
  | array (elem : IdlType) (len : Nat)
  | vec (inner : IdlType)
  | defined (name : String)
  | option (inner : IdlType)
  | genericLenArray (elem : IdlType) (tag : String)
deriving DecidableEq

/-- `_resolve_idl_type_simple`: a chain of `==` comparisons of the input
against the recognized tag strings.  A non-string node compares unequal to
every tag.  When no comparison matches, the source prints a diagnostic and
then executes `return ty` with the local `ty` never assigned, raising
`UnboundLocalError`; this is the `none` case. -/
def resolve_idl_type_simple : TypeSpec → Option IdlTypeSimple
  | .str "u8" => some .u8
  | .str "i8" => some .i8
  | .str "u16" => some .u16
  | .str "i16" => some .i16
  | .str "u32" => some .u32
  | .str "i32" => some .i32
  | .str "u64" => some .u64
  | .str "i64" => some .i64
  | .str "publicKey" => some .publicKey
  | .str "string" => some .string
  | .str "bool" => some .bool
  | .str "bytes" => some .bytes
  | _ => none

/-- `_resolve_idl_type`: resolves one type-specification node.  A bare
string goes to the simple mapper; `array` passes its element directly to
the simple mapper (no recursion); `vec`, `option` and `hashMap` recurse;
any other object shape (in particular a `coption` node) hits the final
`else` which prints a diagnostic and returns `IdlTypeSimple.String`
("hack to avoid crashing").  Failure of the simple mapper propagates. -/
def resolve_idl_type : TypeSpec → Option IdlType
  | .str s => (resolve_idl_type_simple (.str s)).map .simple
  | .array elem len => (resolve_idl_type_simple elem).map (fun s => .array (.simple s) len)
  | .vec inner => (resolve_idl_type inner).map .vec
  | .defined n => some (.defined n)
  | .option inner => (resolve_idl_type inner).map .option
  | .hashMap _ v => (resolve_idl_type v).map (fun t => .genericLenArray t "hashMap")
  | .coption _ => some (.simple .string)
  | .coptionPfx _ _ => some (.simple .string)

/-- A resolved field (`anchorpy_core.idl.IdlField` with the unused docs
component dropped). -/
structure IdlField where
  name : String
  ty : IdlType
deriving DecidableEq

/-- A raw field or argument entry: a name together with its raw type
specification. -/
structure RawField where
  name : String
  ty : TypeSpec
deriving DecidableEq

/-- The argument loop body of `_resolve_instructions` (lines 195-214):
a `coption` node with a `prefix` sub-marker expands into two fields, a
`coption` node without one into a single payload field, and any other
node into a single field resolved by `_resolve_idl_type`. -/
def resolve_instruction_arg (arg : RawField) : Option (List IdlField) :=
  match arg.ty with
  | .coptionPfx inner p =>
    match resolve_idl_type_simple p, resolve_idl_type inner with
    | some pt, some it => some [⟨arg.name ++ "_prefix", .simple pt⟩, ⟨arg.name, it⟩]
    | _, _ => none
  | .coption inner => (resolve_idl_type inner).map (fun it => [⟨arg.name, it⟩])
  | t => (resolve_idl_type t).map (fun it => [⟨arg.name, it⟩])

/-- The full argument loop of `_resolve_instructions`: expansions are
appended in document order. -/
def resolve_instruction_args : List RawField → Option (List IdlField)
  | [] => some []
  | a :: rest =>
    match resolve_instruction_arg a, resolve_instruction_args rest with
    | some fs, some more => some (fs ++ more)
    | _, _ => none

/-- The field loop body of `_resolve_accounts` (lines 226-244); the source
duplicates the `coption` expansion of the instruction-argument loop
verbatim for account struct fields. -/
def resolve_account_field (f : RawField) : Option (List IdlField) :=
  match f.ty with
  | .coptionPfx inner p =>
    match resolve_idl_type_simple p, resolve_idl_type inner with
    | some pt, some it => some [⟨f.name ++ "_prefix", .simple pt⟩, ⟨f.name, it⟩]
    | _, _ => none
  | .coption inner => (resolve_idl_type inner).map (fun it => [⟨f.name, it⟩])
  | t => (resolve_idl_type t).map (fun it => [⟨f.name, it⟩])

/-- The full field loop of `_resolve_accounts` over one struct body. -/
def resolve_account_fields : List RawField → Option (List IdlField)
  | [] => some []
  | f :: rest =>
    match resolve_account_field f, resolve_account_fields rest with
    | some fs, some more => some (fs ++ more)
    | _, _ => none

/-- An entry of an enum variant `fields` list: either a named field
(an object with a `name` key) or a bare positional type specification. -/
inductive RawVariantField where
  | named (f : RawField)
  | anon (t : TypeSpec)
deriving DecidableEq

/-- A raw enum variant: a name, plus the `fields` list when the key is
present. -/
structure RawVariant where
  name : String
  fields : Option (List RawVariantField)
deriving DecidableEq

/-- The body of a raw account or custom-type definition, discriminated by
its `kind` string. -/
inductive RawTypeDefBody where
  | structBody (fields : List RawField)
  | enumBody (variants : List RawVariant)
  | otherKind (kind : String)
deriving DecidableEq

/-- A raw account or custom-type definition entry. -/
structure RawTypeDef where
  name : String
  body : RawTypeDefBody
deriving DecidableEq

/-- Resolved enum variant fields (`EnumFieldsNamed` / `EnumFieldsTuple`). -/
inductive EnumFields where
  | namedFields (fs : List IdlField)
  | tupleFields (ts : List IdlType)
deriving DecidableEq

/-- A resolved enum variant (`IdlEnumVariant`); `fields` is `none` for a
unit variant. -/
structure IdlEnumVariant where
  name : String
  fields : Option EnumFields
deriving DecidableEq

/-- A resolved definition body (`IdlTypeDefinitionTyStruct` /
`IdlTypeDefinitionTyEnum`). -/
inductive IdlTypeDefinitionTy where
  | struct (fields : List IdlField)
  | enum (variants : List IdlEnumVariant)
deriving DecidableEq

/-- A resolved named definition (`IdlTypeDefinition` with the unused docs
component dropped). -/
structure IdlTypeDefinition where
  name : String
  ty : IdlTypeDefinitionTy
deriving DecidableEq

/-- The bucketing loop over one variant `fields` list in `_resolve_types`:
entries with a `name` key go to the named bucket, the rest to the tuple
bucket, every entry being resolved by `_resolve_idl_type`. -/
def resolve_variant_fields : List RawVariantField → Option (List IdlField × List IdlType)
  | [] => some ([], [])
  | .named f :: rest =>
    match resolve_idl_type f.ty, resolve_variant_fields rest with
    | some t, some (ns, ts) => some (⟨f.name, t⟩ :: ns, ts)
    | _, _ => none
  | .anon t :: rest =>
    match resolve_idl_type t, resolve_variant_fields rest with
    | some t2, some (ns, ts) => some (ns, t2 :: ts)
    | _, _ => none

/-- One variant of the `_resolve_types` enum branch: a variant without a
`fields` key is a unit variant; otherwise named entries win over tuple
entries; when the `fields` list is present but empty nothing is appended
(the inner `some none`). -/
def resolve_variant (v : RawVariant) : Option (Option IdlEnumVariant) :=
  match v.fields with
  | none => some (some ⟨v.name, none⟩)
  | some fs =>
    match resolve_variant_fields fs with
    | none => none
    | some (ns, ts) =>
      if ns.length > 0 then some (some ⟨v.name, some (.namedFields ns)⟩)
      else if ts.length > 0 then some (some ⟨v.name, some (.tupleFields ts)⟩)
      else some none

/-- The variants loop of the `_resolve_types` enum branch. -/
def resolve_variants : List RawVariant → Option (List IdlEnumVariant)
  | [] => some []
  | v :: rest =>
    match resolve_variant v, resolve_variants rest with
    | some ov, some more => some (ov.toList ++ more)
    | _, _ => none

/-- The struct-field loop of the `_resolve_types` struct branch
(lines 288-289): each field goes through `_resolve_idl_type` directly,
with no `coption` expansion. -/
def resolve_types_struct_fields : List RawField → Option (List IdlField)
  | [] => some []
  | f :: rest =>
    match resolve_idl_type f.ty, resolve_types_struct_fields rest with
    | some t, some more => some (⟨f.name, t⟩ :: more)
    | _, _ => none

/-- The loop of `_resolve_types`, with the Python local `ty` threaded
explicitly as `last`.  For an unrecognized kind the source prints a
diagnostic but still executes `types.append(IdlTypeDefinition(name, None,
ty))`: if `ty` was assigned by an earlier iteration the entry is appended
with that stale body, and otherwise the read of `ty` raises
`UnboundLocalError` (`none`). -/
def resolve_types_go : Option IdlTypeDefinitionTy → List RawTypeDef → Option (List IdlTypeDefinition)
  | _, [] => some []
  | last, t :: rest =>
    match t.body with
    | .structBody fs =>
      match resolve_types_struct_fields fs with
      | none => none
      | some fields =>
        match resolve_types_go (some (.struct fields)) rest with
        | none => none
        | some more => some (⟨t.name, .struct fields⟩ :: more)
    | .enumBody vs =>
      match resolve_variants vs with
      | none => none
      | some variants =>
        match resolve_types_go (some (.enum variants)) rest with
        | none => none
        | some more => some (⟨t.name, .enum variants⟩ :: more)
    | .otherKind _ =>
      match last with
      | none => none
      | some ty =>
        match resolve_types_go (some ty) rest with
        | none => none
        | some more => some (⟨t.name, ty⟩ :: more)

/-- `_resolve_types`: the local `ty` starts unassigned. -/
def resolve_types (ts : List RawTypeDef) : Option (List IdlTypeDefinition) :=
  resolve_types_go none ts

/-- `_resolve_accounts`: only `struct` entries are handled; any other kind
prints a diagnostic and the entry is skipped (the `append` sits inside the
`struct` branch). -/
def resolve_accounts : List RawTypeDef → Option (List IdlTypeDefinition)
  | [] => some []
  | a :: rest =>
    match a.body with
    | .structBody fs =>
      match resolve_account_fields fs, resolve_accounts rest with
      | some fields, some more => some (⟨a.name, .struct fields⟩ :: more)
      | _, _ => none
    | _ => resolve_accounts rest

/-- A resolved error record (`anchorpy_core.idl.IdlErrorCode`). -/
structure IdlErrorCode where
  code : Nat
  name : String
  msg : String
deriving DecidableEq

/-- A raw error entry of the JSON document. -/
structure RawError where
  code : Nat
  name : String
  msg : String
deriving DecidableEq

/-- Python `\s` on `str` patterns: exactly the characters for which
`str.isspace()` holds (`Py_UNICODE_ISSPACE`), that is `0x09`-`0x0d`,
`0x1c`-`0x1f`, space, `0x85`, no-break space `0xa0`, `0x1680`,
`0x2000`-`0x200a`, `0x2028`, `0x2029`, `0x202f`, `0x205f` and
`0x3000`. -/
def isPyWs (c : Char) : Bool :=
  decide ((9 ≤ c.toNat ∧ c.toNat ≤ 13) ∨ (28 ≤ c.toNat ∧ c.toNat ≤ 31) ∨
    c.toNat = 32 ∨ c.toNat = 133 ∨ c.toNat = 160 ∨ c.toNat = 5760 ∨
    (8192 ≤ c.toNat ∧ c.toNat ≤ 8202) ∨ c.toNat = 8232 ∨ c.toNat = 8233 ∨
    c.toNat = 8239 ∨ c.toNat = 8287 ∨ c.toNat = 12288)

/-- Whether a character list starts with a Python whitespace character. -/
def head_is_ws : List Char → Bool
  | [] => false
  | c :: _ => isPyWs c

/-- `re.search("\n\s*", msg)`: the first newline of the message together
with the (greedy) run of whitespace following it; `none` when the message
has no newline. -/
def firstNewlineRun : List Char → Option (List Char)
  | [] => none
  | c :: rest =>
    if c = '\n' then some ('\n' :: rest.takeWhile isPyWs) else firstNewlineRun rest

/-- Python `str.replace`: replace every non-overlapping occurrence of
`pat` in `s` by `repl`, scanning left to right.  The fuel argument (always
called with `s.length`, enough for every step to consume at least one
character) keeps the recursion structural so that proofs can evaluate. -/
def replaceAux : Nat → List Char → List Char → List Char → List Char
  | 0, s, _, _ => s
  | _ + 1, [], _, _ => []
  | fuel + 1, c :: rest, pat, repl =>
    if pat.isPrefixOf (c :: rest) ∧ pat ≠ [] then
      repl ++ replaceAux fuel ((c :: rest).drop pat.length) pat repl
    else c :: replaceAux fuel rest pat repl

/-- Python `s.replace(pat, repl)` on character lists. -/
def str_replace (s pat repl : List Char) : List Char :=
  replaceAux s.length s pat repl

/-- The per-entry body of `_fix_error_msg`: find the first
newline-plus-whitespace run of the message and, when there is one,
replace every occurrence of that exact substring by a single space. -/
def fix_error_msg_one (msg : String) : String :=
  match firstNewlineRun msg.data with
  | none => msg
  | some pat => ⟨str_replace msg.data pat [' ']⟩

/-- `_fix_error_msg`: the error loop, applied to every entry of the
`errors` list. -/
def fix_error_msg (errs : List RawError) : List RawError :=
  errs.map (fun e => ⟨e.code, e.name, fix_error_msg_one e.msg⟩)

/-- `_resolve_errors`: copy `code`, `name` and `msg` of every entry. -/
def resolve_errors (errs : List RawError) : List IdlErrorCode :=
  errs.map (fun e => ⟨e.code, e.name, e.msg⟩)

/-- Spec-side normalization, following the words of the specification:
collapse every run of a newline followed by whitespace into a single
space, preserving the rest of the text verbatim.  Stated only to be
compared against `fix_error_msg_one`. -/
def collapseRunsAux : Nat → List Char → List Char
  | 0, s => s
  | _ + 1, [] => []
  | fuel + 1, c :: rest =>
    if c = '\n' then ' ' :: collapseRunsAux fuel (rest.dropWhile isPyWs)
    else c :: collapseRunsAux fuel rest

/-- Spec-side normalization on strings (see `collapseRunsAux`). -/
def collapse_newline_runs_spec (msg : String) : String :=
  ⟨collapseRunsAux msg.data.length msg.data⟩

/-- A discriminant object `{type, value}` as stored into the JSON
instruction entries. -/
structure Disc where
  dty : String
  value : Nat
deriving DecidableEq

/-- A raw instruction entry, reduced to the components read by the
discriminant passes: its name and its optional `discriminant` object. -/
structure RawInstr where
  name : String
  disc : Option Disc
deriving DecidableEq

/-- Python `int.to_bytes(n, 1, "big")` for a nonnegative `n`: the single
byte when `n` fits, an `OverflowError` (`none`) otherwise. -/
def int_to_bytes_1 (n : Nat) : Option Nat :=
  if n ≤ 255 then some n else none

/-- Whether the literal `Extension` starting at position `i` of `s` can
end the `ext` group of
`re.match("^(?P<ext>.+Extension)(?P<name>.+)", name)`: at least one
character before it, none of them a newline (`.` does not match `\n`),
the literal `Extension` at `i`, and at least one character right after
the literal that is not a newline (the `name` group needs one `.`; it
does not have to reach the end of the string).  `headD '\n'` is `'\n'`
exactly when the tail is empty or starts with a newline. -/
def extMatchAt (s : List Char) (i : Nat) : Bool :=
  decide (1 ≤ i) && "Extension".data.isPrefixOf (s.drop i)
    && !(s.take i).contains '\n'
    && !((s.drop (i + 9)).headD '\n' == '\n')

/-- The regex match of `_fix_instructions_discriminants`: `.+` is greedy,
so group `ext` ends at the last viable occurrence of `Extension`; the
result is the `ext` group (`name[0 : i + 9]`). -/
def extension_match (name : String) : Option String :=
  match ((List.range name.data.length).filter (extMatchAt name.data)).getLast? with
  | some i => some ⟨name.data.take (i + 9)⟩
  | none => none

/-- The counters of the synthesis pass: `index`, `sub_index` and
`parent_extension`, exactly the loop-local state of
`_fix_instructions_discriminants`. -/
structure SynthState where
  index : Nat
  sub_index : Nat
  parent_extension : String
deriving DecidableEq

/-- The group-switch adjustment at the head of the extension branch:
when the carried group is non-empty and differs from the new group key,
`index` is incremented and `sub_index` reset to `0`. -/
def switch_adjust (st : SynthState) (ext : String) : SynthState :=
  if st.parent_extension ≠ "" ∧ st.parent_extension ≠ ext then
    ⟨st.index + 1, 0, st.parent_extension⟩
  else st

/-- One iteration of the `_fix_instructions_discriminants` loop on the
instruction name, returning the discriminant stored into the entry and
the updated counters.  In the extension branch the value is
`int.from_bytes(to_bytes(index,1) + to_bytes(sub_index,1), "big")`,
so a counter above `255` raises `OverflowError` (`none`); the
non-extension branch stores the bare `index` with no width check. -/
def fix_step (st : SynthState) (name : String) : Option (Disc × SynthState) :=
  match extension_match name with
  | some ext =>
    let st1 := switch_adjust st ext
    match int_to_bytes_1 st1.index, int_to_bytes_1 st1.sub_index with
    | some hi, some lo =>
      some (⟨"u16", hi * 256 + lo⟩, ⟨st1.index, st1.sub_index + 1, ext⟩)
    | _, _ => none
  | none =>
    let st1 : SynthState :=
      if st.parent_extension ≠ "" then ⟨st.index + 1, 0, ""⟩ else st
    some (⟨"u8", st1.index⟩, ⟨st1.index + 1, st1.sub_index, st1.parent_extension⟩)

/-- The instruction loop of `_fix_instructions_discriminants`: every
entry receives the synthesized discriminant, whether or not it already
carried one. -/
def fix_go : SynthState → List RawInstr → Option (List RawInstr)
  | _, [] => some []
  | st, i :: rest =>
    match fix_step st i.name with
    | none => none
    | some (d, st2) =>
      match fix_go st2 rest with
      | none => none
      | some more => some (⟨i.name, some d⟩ :: more)

/-- `_fix_instructions_discriminants`: counters start at
`index = 0`, `sub_index = 0`, `parent_extension = ""`. -/
def fix_instructions_discriminants (l : List RawInstr) : Option (List RawInstr) :=
  fix_go ⟨0, 0, ""⟩ l

/-- One hexadecimal digit, lowercase, as produced by Python `hex`. -/
def hexDigit (n : Nat) : Char :=
  if n < 10 then Char.ofNat (48 + n) else Char.ofNat (87 + n)

/-- Digits of `n` in base 16, most significant first (fuel-structured;
`fuel = n` is always enough). -/
def hexDigitsAux : Nat → Nat → List Char
  | 0, _ => []
  | fuel + 1, n => if n = 0 then [] else hexDigitsAux fuel (n / 16) ++ [hexDigit (n % 16)]

/-- Python `hex(n)` for a nonnegative `n`: `0x` followed by the lowercase
hexadecimal digits (`hex(0) = "0x0"`). -/
def pyHex (n : Nat) : String :=
  ⟨'0' :: 'x' :: (if n = 0 then ['0'] else hexDigitsAux n n)⟩

/-- `_load_instructions_discriminants`: for every entry carrying a
`discriminant` object, record `(name, hex(value))`, in document order. -/
def load_instructions_discriminants : List RawInstr → List (String × String)
  | [] => []
  | i :: rest =>
    match i.disc with
    | some d => (i.name, pyHex d.value) :: load_instructions_discriminants rest
    | none => load_instructions_discriminants rest

/-- The discriminants of a processed instruction list, in document
order. -/
def discs_of (l : List RawInstr) : List Disc :=
  l.filterMap RawInstr.disc

/-- The lexicographic potential of the counter state: `index * 256 +
sub_index`.  Every synthesized two-byte value equals the potential of the
state it is assigned from, and the potential never decreases along the
pass. -/
def phi (st : SynthState) : Nat :=
  st.index * 256 + st.sub_index

/-!
Theorems.  Each claim of the specification gets exactly one theorem below
(plus, where needed, a closed counterexample or witness instance).
-/

/-- Claim C1: running discriminant synthesis on the instruction list
`["initialize", "mintToExtensionBurn", "mintToExtensionMint",
"closeAccount"]` with no explicit discriminants and then loading the
name-to-discriminant map yields exactly
`{"initialize": "0x0", "mintToExtensionBurn": "0x100",
"mintToExtensionMint": "0x101", "closeAccount": "0x2"}`. -/
theorem spec_c1 :
    (fix_instructions_discriminants
      [⟨"initialize", none⟩, ⟨"mintToExtensionBurn", none⟩,
       ⟨"mintToExtensionMint", none⟩, ⟨"closeAccount", none⟩]).map
        load_instructions_discriminants
      = some [("initialize", "0x0"), ("mintToExtensionBurn", "0x100"),
              ("mintToExtensionMint", "0x101"), ("closeAccount", "0x2")] := by
  decide

/-- Claim C6: resolving `{"vec": {"option": {"array": ["u8", 32]}}}`
yields `Vector(Option(FixedArray(Scalar(U8), 32)))`; the `vec` and
`option` markers recurse into the full resolver, while the `array` marker
passes its element directly to the scalar mapper, so a composite array
element is never recursed into (the scalar mapper fails on it). -/
theorem spec_c6 :
    resolve_idl_type (.vec (.option (.array (.str "u8") 32)))
        = some (.vec (.option (.array (.simple .u8) 32))) ∧
    (∀ t : TypeSpec, resolve_idl_type (.vec t) = (resolve_idl_type t).map IdlType.vec) ∧
    (∀ t : TypeSpec,
      resolve_idl_type (.option t) = (resolve_idl_type t).map IdlType.option) ∧
    (∀ (e : TypeSpec) (n : Nat),
      resolve_idl_type (.array e n)
        = (resolve_idl_type_simple e).map (fun s => .array (.simple s) n)) ∧
    (∀ (e : TypeSpec) (n : Nat), (∀ s, e ≠ .str s) → resolve_idl_type (.array e n) = none) := by
  refine ⟨by decide, fun t => rfl, fun t => rfl, fun e n => rfl, ?_⟩
  intro e n he
  cases e <;> first | exact absurd rfl (he _) | rfl

/-- Claim C6 witness: a composite array element makes resolution fail
rather than recurse. -/
theorem spec_c6_witness : resolve_idl_type (.array (.vec (.str "u8")) 2) = none :=
  spec_c6.2.2.2.2 (.vec (.str "u8")) 2 (fun _ h => nomatch h)

/-- Claim C3 counterexample: in a custom-type struct, a `coption` field
with a `prefix` does not expand into two fields; `_resolve_types` sends it
through the generic resolver, which falls back to a single field of
scalar `string` type. -/
theorem spec_c3_counterexample :
    resolve_types [⟨"T", .structBody [⟨"owner", .coptionPfx (.str "publicKey") (.str "u8")⟩]⟩]
        = some [⟨"T", .struct [⟨"owner", .simple .string⟩]⟩] ∧
    resolve_types [⟨"T", .structBody [⟨"owner", .coptionPfx (.str "publicKey") (.str "u8")⟩]⟩]
        ≠ some [⟨"T", .struct [⟨"owner_prefix", .simple .u8⟩,
                               ⟨"owner", .simple .publicKey⟩]⟩] := by
  constructor <;> decide

/-- Claim C3 (amended): the `coption` expansion (two fields when a
`prefix` sub-marker is present, one payload field otherwise) is performed
for instruction arguments and account struct fields; custom-type struct
fields are not expanded, the `coption` node there resolves to a single
field with the fallback `string` scalar type. -/
theorem spec_c3_amended :
    (∀ (nm : String) (inner p : TypeSpec) (pt : IdlTypeSimple) (it : IdlType),
      resolve_idl_type_simple p = some pt → resolve_idl_type inner = some it →
        resolve_instruction_arg ⟨nm, .coptionPfx inner p⟩
            = some [⟨nm ++ "_prefix", .simple pt⟩, ⟨nm, it⟩] ∧
        resolve_account_field ⟨nm, .coptionPfx inner p⟩
            = some [⟨nm ++ "_prefix", .simple pt⟩, ⟨nm, it⟩]) ∧
    (∀ (nm : String) (inner : TypeSpec) (it : IdlType),
      resolve_idl_type inner = some it →
        resolve_instruction_arg ⟨nm, .coption inner⟩ = some [⟨nm, it⟩] ∧
        resolve_account_field ⟨nm, .coption inner⟩ = some [⟨nm, it⟩]) ∧
    (∀ (nm : String) (inner : TypeSpec),
      resolve_types_struct_fields [⟨nm, .coption inner⟩]
          = some [⟨nm, .simple .string⟩] ∧
      ∀ p : TypeSpec, resolve_types_struct_fields [⟨nm, .coptionPfx inner p⟩]
          = some [⟨nm, .simple .string⟩]) := by
  refine ⟨?_, ?_, ?_⟩
  · intro nm inner p pt it hp hi
    constructor <;> simp [resolve_instruction_arg, resolve_account_field, hp, hi]
  · intro nm inner it hi
    constructor <;> simp [resolve_instruction_arg, resolve_account_field, hi]
  · exact fun nm inner => ⟨rfl, fun p => rfl⟩

/-- Claim C3 witness: the instruction-argument expansion at the concrete
field `owner : coption(publicKey) with prefix u8`. -/
theorem spec_c3_amended_witness :
    resolve_instruction_arg ⟨"owner", .coptionPfx (.str "publicKey") (.str "u8")⟩
      = some [⟨"owner_prefix", .simple .u8⟩, ⟨"owner", .simple .publicKey⟩] :=
  (spec_c3_amended.1 "owner" (.str "publicKey") (.str "u8") .u8
    (.simple .publicKey) rfl rfl).1

/-- Claim C4 (code bug): on an unrecognized tag the scalar mapper does
not fall back to the `string` scalar; the local `ty` is never assigned, so
`return ty` raises `UnboundLocalError` (here `none`), and the failure
propagates through `_resolve_idl_type` instead of letting resolution
continue. -/
theorem spec_c4_behavior :
    resolve_idl_type_simple (.str "f32") = none ∧
    resolve_idl_type (.str "f32") = none ∧
    resolve_idl_type_simple (.str "u8") = some .u8 := by
  refine ⟨rfl, rfl, rfl⟩

/-- Claim C5 (code bug): `_resolve_accounts` does skip an entry of
unknown kind, but `_resolve_types` does not: its `append` sits outside
the kind dispatch, so an unknown-kind entry is appended with the stale
body of the previous entry, and when it is the first entry the read of
the unassigned local `ty` raises `UnboundLocalError` (`none`). -/
theorem spec_c5_behavior :
    resolve_accounts [⟨"B", .otherKind "union"⟩] = some [] ∧
    resolve_types [⟨"A", .structBody []⟩, ⟨"B", .otherKind "union"⟩]
        = some [⟨"A", .struct []⟩, ⟨"B", .struct []⟩] ∧
    resolve_types [⟨"B", .otherKind "union"⟩] = none := by
  refine ⟨rfl, by decide, rfl⟩

/-- Claim C8 counterexample: an explicit discriminant
`{"type": "u8", "value": 7}` does not bypass synthesis; running the
synthesis pass overwrites it, and the loaded map reports the synthesized
`"0x0"`, not `"0x7"`. -/
theorem spec_c8_counterexample :
    (fix_instructions_discriminants [⟨"foo", some ⟨"u8", 7⟩⟩]).map
        load_instructions_discriminants = some [("foo", "0x0")] ∧
    (fix_instructions_discriminants [⟨"foo", some ⟨"u8", 7⟩⟩]).map
        load_instructions_discriminants ≠ some [("foo", "0x7")] := by
  constructor <;> decide

/-- Helper: the synthesis pass reads only the instruction names; erasing
the incoming `discriminant` objects does not change its output. -/
lemma fix_go_disc_irrel : ∀ (l : List RawInstr) (st : SynthState),
    fix_go st l = fix_go st (l.map (fun i => ⟨i.name, none⟩))
  | [], _ => rfl
  | i :: rest, st => by
    simp only [List.map_cons, fix_go]
    cases hs : fix_step st i.name with
    | none => rfl
    | some p =>
      obtain ⟨d, st2⟩ := p
      dsimp only
      rw [fix_go_disc_irrel rest st2]

/-- Claim C8 (amended): the loader reports every present discriminant
object directly, with its value formatted as hex (so an explicit
`{"type": "u8", "value": 7}` loads as `"0x7"` when synthesis is not run);
the synthesis pass however does not bypass entries that carry an explicit
discriminant: its output is independent of the incoming discriminants,
which it unconditionally overwrites. -/
theorem spec_c8_amended :
    (∀ (nm ds : String) (v : Nat) (rest : List RawInstr),
      load_instructions_discriminants (⟨nm, some ⟨ds, v⟩⟩ :: rest)
        = (nm, pyHex v) :: load_instructions_discriminants rest) ∧
    pyHex 7 = "0x7" ∧
    load_instructions_discriminants [⟨"foo", some ⟨"u8", 7⟩⟩] = [("foo", "0x7")] ∧
    (∀ instrs : List RawInstr,
      fix_instructions_discriminants instrs
        = fix_instructions_discriminants (instrs.map (fun i => ⟨i.name, none⟩))) := by
  refine ⟨fun nm ds v rest => rfl, by decide, by decide, ?_⟩
  intro instrs
  exact fix_go_disc_irrel instrs ⟨0, 0, ""⟩

/-- Claim C10 (amended): the one-byte conversion guards only the
extension (two-byte) assignments.  A non-extension step always succeeds,
storing the bare `index` with no range check even above `255`; an
extension step succeeds exactly when, after the group-switch adjustment,
both `index` and `sub_index` fit in one byte, and aborts with
`OverflowError` otherwise. -/
theorem spec_c10_amended (st : SynthState) (name : String) :
    (extension_match name = none → (fix_step st name).isSome = true) ∧
    (∀ e, extension_match name = some e →
      ((fix_step st name).isSome = true ↔
        (switch_adjust st e).index ≤ 255 ∧ (switch_adjust st e).sub_index ≤ 255)) := by
  constructor
  · intro h
    simp [fix_step, h]
  · intro e he
    simp only [fix_step, he, int_to_bytes_1]
    by_cases h1 : (switch_adjust st e).index ≤ 255 <;>
      by_cases h2 : (switch_adjust st e).sub_index ≤ 255 <;>
        simp [h1, h2]

/-- Claim C10 witness: an in-range extension step succeeds. -/
theorem spec_c10_amended_witness :
    (fix_step ⟨0, 0, ""⟩ "aExtensionB").isSome = true :=
  ((spec_c10_amended ⟨0, 0, ""⟩ "aExtensionB").2 "aExtension" (by decide)).mpr (by decide)

set_option maxRecDepth 4000 in
/-- Claim C10 counterexample: a list of 257 non-extension instructions
completes without any error, and its last synthesized discriminant is the
out-of-one-byte value `256` stored with type tag `u8` — the claimed abort
on counter values above `255` does not happen for one-byte assignments. -/
theorem spec_c10_counterexample :
    ((fix_instructions_discriminants (List.replicate 257 ⟨"a", none⟩)).map
        (fun l => l.getLast?)) = some (some ⟨"a", some ⟨"u8", 256⟩⟩) ∧
    (fix_instructions_discriminants (List.replicate 257 ⟨"a", none⟩)).isSome = true := by
  constructor <;> decide

/-- Helper: the first newline run is found past any newline-free part. -/
lemma firstNewlineRun_append (a s : List Char) (ha : ('\n' : Char) ∉ a) :
    firstNewlineRun (a ++ s) = firstNewlineRun s := by
  induction a with
  | nil => rfl
  | cons c a ih =>
    have hc : ¬(c = '\n') := fun h => ha (h ▸ List.mem_cons_self c a)
    simp only [List.cons_append, firstNewlineRun, if_neg hc]
    exact ih (fun h => ha (List.mem_cons_of_mem _ h))

/-- Helper: `takeWhile` over a whitespace block followed by a
non-whitespace boundary returns exactly the block. -/
lemma takeWhile_ws_append (ws b : List Char) (hws : ∀ c ∈ ws, isPyWs c = true)
    (hb : head_is_ws b = false) : (ws ++ b).takeWhile isPyWs = ws := by
  induction ws with
  | nil =>
    cases b with
    | nil => rfl
    | cons c bs =>
      simp only [head_is_ws] at hb
      simp [List.takeWhile, hb]
  | cons c ws ih =>
    have hc := hws c (List.mem_cons_self c ws)
    simp only [List.cons_append, List.takeWhile, hc]
    exact congrArg (c :: ·) (ih (fun x hx => hws x (List.mem_cons_of_mem _ hx)))

/-- Helper: the matching step of `replaceAux`. -/
lemma replaceAux_succ_pos (f : Nat) (c : Char) (rest pat repl : List Char)
    (h : pat.isPrefixOf (c :: rest) = true) (hne : pat ≠ []) :
    replaceAux (f + 1) (c :: rest) pat repl
      = repl ++ replaceAux f ((c :: rest).drop pat.length) pat repl := by
  simp only [replaceAux]
  rw [if_pos ⟨h, hne⟩]

/-- Helper: the non-matching step of `replaceAux`. -/
lemma replaceAux_succ_neg (f : Nat) (c : Char) (rest pat repl : List Char)
    (h : pat.isPrefixOf (c :: rest) = false) :
    replaceAux (f + 1) (c :: rest) pat repl = c :: replaceAux f rest pat repl := by
  simp only [replaceAux]
  rw [if_neg (fun hand => by rw [h] at hand; exact Bool.false_ne_true hand.1)]

/-- Helper: a pattern starting with a newline never matches a list whose
head differs from a newline. -/
lemma isPrefixOf_newline_false (ps : List Char) (c : Char) (l : List Char)
    (hc : c ≠ '\n') : (('\n' :: ps).isPrefixOf (c :: l)) = false := by
  simp only [List.isPrefixOf, Bool.and_eq_false_iff]
  left
  exact beq_eq_false_iff_ne.mpr (fun h => hc h.symm)

/-- Helper: a pattern starting with a newline never matches inside a
newline-free list, so `replace` leaves it unchanged (any fuel). -/
lemma replaceAux_no_newline (fuel : Nat) (b ps r : List Char)
    (hb : ('\n' : Char) ∉ b) : replaceAux fuel b ('\n' :: ps) r = b := by
  induction b generalizing fuel with
  | nil => cases fuel <;> rfl
  | cons c bs ih =>
    cases fuel with
    | zero => rfl
    | succ f =>
      have hc : c ≠ '\n' := fun h => hb (h ▸ List.mem_cons_self c bs)
      rw [replaceAux_succ_neg f c bs _ r (isPrefixOf_newline_false ps c bs hc)]
      exact congrArg (c :: ·) (ih f (fun h => hb (List.mem_cons_of_mem _ h)))

/-- Helper: replacing the pattern `'\n' :: ws` inside
`a ++ ('\n' :: ws) ++ b`, where neither `a` nor `b` contains a newline,
hits exactly the middle occurrence. -/
lemma replaceAux_single (a ws b : List Char) (fuel : Nat)
    (hfuel : a.length + (ws.length + 1) + b.length ≤ fuel)
    (ha : ('\n' : Char) ∉ a) (hb : ('\n' : Char) ∉ b) :
    replaceAux fuel (a ++ ('\n' :: ws) ++ b) ('\n' :: ws) [' '] = a ++ ' ' :: b := by
  induction a generalizing fuel with
  | nil =>
    cases fuel with
    | zero => omega
    | succ f =>
      have hpre : (('\n' :: ws).isPrefixOf (('\n' :: ws) ++ b)) = true := by
        rw [List.isPrefixOf_iff_prefix]
        exact List.prefix_append _ _
      simp only [List.nil_append, List.cons_append] at hpre ⊢
      rw [replaceAux_succ_pos f '\n' (ws ++ b) _ [' '] hpre (by simp)]
      have hdrop : ('\n' :: (ws ++ b)).drop ('\n' :: ws).length = b := by
        simp only [List.length_cons, List.drop_succ_cons]
        exact List.drop_left ws b
      rw [hdrop, replaceAux_no_newline f b ws [' '] hb]
      rfl
  | cons c a ih =>
    cases fuel with
    | zero => simp at hfuel
    | succ f =>
      have hc : c ≠ '\n' := fun h => ha (h ▸ List.mem_cons_self c a)
      simp only [List.cons_append]
      rw [replaceAux_succ_neg f c _ _ [' ']
        (isPrefixOf_newline_false ws c _ hc)]
      exact congrArg (c :: ·)
        (ih f (by simp at hfuel ⊢; omega) (fun h => ha (List.mem_cons_of_mem _ h)))

/-- Claim C7 counterexample: a message with two distinct newline runs is
not normalized run-by-run; only occurrences of the first found run text
are replaced, so `"a\nb\n  c"` becomes `"a b   c"` rather than the
claimed `"a b c"`. -/
theorem spec_c7_counterexample :
    fix_error_msg_one "a\nb\n  c" = "a b   c" ∧
    collapse_newline_runs_spec "a\nb\n  c" = "a b c" ∧
    fix_error_msg_one "a\nb\n  c" ≠ collapse_newline_runs_spec "a\nb\n  c" := by
  refine ⟨by decide, by decide, by decide⟩

/-- Claim C7 (amended): every resolved error record copies `code`, `name`
and the fixed message; the fix locates the first run of a newline
followed by whitespace and replaces every occurrence of that exact
substring by one space.  In particular a message with a single such run
(newline-free before and after it, the run maximal) collapses that run to
a single space, as in `"line one\n    line two" -> "line one line two"`;
messages whose runs differ are not all collapsed (see the
counterexample). -/
theorem spec_c7_amended (errs : List RawError) (a ws b : List Char)
    (ha : ('\n' : Char) ∉ a) (hws : ∀ c ∈ ws, isPyWs c = true)
    (hb : ('\n' : Char) ∉ b) (hbh : head_is_ws b = false) :
    resolve_errors (fix_error_msg errs)
        = errs.map (fun e => ⟨e.code, e.name, fix_error_msg_one e.msg⟩) ∧
    fix_error_msg_one ⟨a ++ '\n' :: (ws ++ b)⟩ = ⟨a ++ ' ' :: b⟩ := by
  constructor
  · simp [resolve_errors, fix_error_msg]
  · have hrun : firstNewlineRun (a ++ '\n' :: (ws ++ b)) = some ('\n' :: ws) := by
      rw [firstNewlineRun_append a _ ha]
      simp only [firstNewlineRun, if_pos rfl, if_pos trivial]
      rw [takeWhile_ws_append ws b hws hbh]
    have key : str_replace (a ++ '\n' :: (ws ++ b)) ('\n' :: ws) [' '] = a ++ ' ' :: b := by
      unfold str_replace
      have hassoc : a ++ '\n' :: (ws ++ b) = a ++ ('\n' :: ws) ++ b := by simp
      rw [hassoc]
      exact replaceAux_single a ws b _ (by simp [List.length_append]; omega) ha hb
    show (match firstNewlineRun (a ++ '\n' :: (ws ++ b)) with
      | none => String.mk (a ++ '\n' :: (ws ++ b))
      | some pat => String.mk (str_replace (a ++ '\n' :: (ws ++ b)) pat [' '])) =
        String.mk (a ++ ' ' :: b)
    rw [hrun]
    exact congrArg String.mk key

/-- Claim C7 witness: the single-run message of the specification
example. -/
theorem spec_c7_amended_witness :
    fix_error_msg_one ⟨"line one".data ++ '\n' :: ("    ".data ++ "line two".data)⟩
      = ⟨"line one".data ++ ' ' :: "line two".data⟩ :=
  (spec_c7_amended [] "line one".data "    ".data "line two".data
    (by decide) (by decide) (by decide) (by decide)).2

/-- Helper: inverting a successful one-byte conversion. -/
lemma int_to_bytes_1_some {n m : Nat} (h : int_to_bytes_1 n = some m) :
    n ≤ 255 ∧ m = n := by
  unfold int_to_bytes_1 at h
  split at h
  · rename_i hle
    injection h with h
    exact ⟨hle, h.symm⟩
  · simp at h

/-- Helper: the group-switch adjustment never lowers `index`. -/
lemma switch_adjust_index (st : SynthState) (ext : String) :
    st.index ≤ (switch_adjust st ext).index := by
  unfold switch_adjust
  split <;> simp

/-- Helper: while `sub_index` is at most `256`, the group-switch
adjustment never lowers the potential `phi`. -/
lemma switch_adjust_phi (st : SynthState) (ext : String)
    (hsub : st.sub_index ≤ 256) : phi st ≤ phi (switch_adjust st ext) := by
  unfold switch_adjust phi
  split <;> (try dsimp only) <;> omega

/-- Helper: one synthesis step never lowers `index`. -/
lemma fix_step_index_mono {st : SynthState} {nm : String} {d : Disc}
    {st2 : SynthState} (h : fix_step st nm = some (d, st2)) :
    st.index ≤ st2.index := by
  unfold fix_step at h
  cases hm : extension_match nm with
  | some ext =>
    rw [hm] at h
    dsimp only at h
    split at h
    · simp only [Option.some.injEq, Prod.mk.injEq] at h
      obtain ⟨-, rfl⟩ := h
      exact switch_adjust_index st ext
    · simp at h
  | none =>
    rw [hm] at h
    dsimp only at h
    by_cases hp : st.parent_extension ≠ ""
    · rw [if_pos hp] at h
      simp only [Option.some.injEq, Prod.mk.injEq] at h
      obtain ⟨-, rfl⟩ := h
      dsimp only
      omega
    · rw [if_neg hp] at h
      simp only [Option.some.injEq, Prod.mk.injEq] at h
      obtain ⟨-, rfl⟩ := h
      dsimp only
      omega

/-- Helper: the step invariant of the synthesis pass.  Starting from a
state whose `sub_index` is at most `256`, a successful step keeps
`sub_index` at most `256`, never lowers `index` or the potential `phi`,
and the assigned discriminant is either a one-byte `u8` whose value lies
in `[index, index-after)`, or a two-byte `u16` whose value lies in
`[phi, phi-after)`. -/
lemma fix_step_spec {st : SynthState} {nm : String} {d : Disc}
    {st2 : SynthState} (h : fix_step st nm = some (d, st2))
    (hsub : st.sub_index ≤ 256) :
    st2.sub_index ≤ 256 ∧ st.index ≤ st2.index ∧ phi st ≤ phi st2 ∧
      ((d.dty = "u8" ∧ st.index ≤ d.value ∧ d.value < st2.index) ∨
       (d.dty = "u16" ∧ phi st ≤ d.value ∧ d.value < phi st2)) := by
  unfold fix_step at h
  cases hm : extension_match nm with
  | some ext =>
    rw [hm] at h
    dsimp only at h
    split at h
    · rename_i hi lo h1 h2
      obtain ⟨hle1, rfl⟩ := int_to_bytes_1_some h1
      obtain ⟨hle2, rfl⟩ := int_to_bytes_1_some h2
      simp only [Option.some.injEq, Prod.mk.injEq] at h
      obtain ⟨rfl, rfl⟩ := h
      have hidx := switch_adjust_index st ext
      have hphi := switch_adjust_phi st ext hsub
      dsimp only [phi] at hphi ⊢
      refine ⟨?_, ?_, ?_, Or.inr ⟨rfl, ?_, ?_⟩⟩ <;> dsimp only <;> omega
    · simp at h
  | none =>
    rw [hm] at h
    dsimp only at h
    by_cases hp : st.parent_extension ≠ ""
    · rw [if_pos hp] at h
      simp only [Option.some.injEq, Prod.mk.injEq] at h
      obtain ⟨rfl, rfl⟩ := h
      refine ⟨?_, ?_, ?_, Or.inl ⟨rfl, ?_, ?_⟩⟩ <;> dsimp only [phi] <;> omega
    · rw [if_neg hp] at h
      simp only [Option.some.injEq, Prod.mk.injEq] at h
      obtain ⟨rfl, rfl⟩ := h
      refine ⟨?_, ?_, ?_, Or.inl ⟨rfl, ?_, ?_⟩⟩ <;> dsimp only [phi] <;> omega

/-- Helper: the discriminants of a processed entry list, cons case. -/
lemma discs_of_cons (nm : String) (d : Disc) (l : List RawInstr) :
    discs_of (⟨nm, some d⟩ :: l) = d :: discs_of l := by
  simp [discs_of]

/-- Helper: the pass invariant.  From any state with `sub_index` at most
`256`, a completed pass produces discriminants that are all `u8` values
at least `index` or `u16` values at least `phi`, with the values of each
kind strictly increasing in document order and all discriminants pairwise
distinct. -/
lemma fix_go_sound : ∀ (l : List RawInstr) (st : SynthState) (out : List RawInstr),
    st.sub_index ≤ 256 → fix_go st l = some out →
    (∀ x ∈ discs_of out,
        (x.dty = "u8" ∧ st.index ≤ x.value) ∨ (x.dty = "u16" ∧ phi st ≤ x.value)) ∧
    ((discs_of out).filter (fun x => x.dty == "u8")).Pairwise (fun x y => x.value < y.value) ∧
    ((discs_of out).filter (fun x => x.dty == "u16")).Pairwise (fun x y => x.value < y.value) ∧
    (discs_of out).Pairwise (fun x y => x ≠ y)
  | [], st, out, hsub, h => by
    simp only [fix_go, Option.some.injEq] at h
    subst h
    simp [discs_of]
  | i :: rest, st, out, hsub, h => by
    simp only [fix_go] at h
    split at h
    · simp at h
    · rename_i d st2 hs
      split at h
      · simp at h
      · rename_i more hr
        simp only [Option.some.injEq] at h
        subst h
        obtain ⟨hsub2, hidx, hphi, hcase⟩ := fix_step_spec hs hsub
        obtain ⟨ihB, ih8, ih16, ihD⟩ := fix_go_sound rest st2 more hsub2 hr
        rw [discs_of_cons]
        refine ⟨?_, ?_, ?_, ?_⟩
        · intro x hx
          rcases List.mem_cons.mp hx with rfl | hx
          · rcases hcase with ⟨h1, h2, -⟩ | ⟨h1, h2, -⟩
            · exact Or.inl ⟨h1, h2⟩
            · exact Or.inr ⟨h1, h2⟩
          · rcases ihB x hx with ⟨h1, h2⟩ | ⟨h1, h2⟩
            · exact Or.inl ⟨h1, le_trans hidx h2⟩
            · exact Or.inr ⟨h1, le_trans hphi h2⟩
        · rcases hcase with ⟨h1, h2, h3⟩ | ⟨h1, h2, h3⟩
          · rw [List.filter_cons, if_pos (by simp [h1])]
            rw [List.pairwise_cons]
            refine ⟨?_, ih8⟩
            intro x hx
            obtain ⟨hxm, hx8⟩ := List.mem_filter.mp hx
            rcases ihB x hxm with ⟨-, hxv⟩ | ⟨hx16, -⟩
            · omega
            · rw [hx16] at hx8
              simp at hx8
          · rw [List.filter_cons, if_neg (by simp [h1])]
            exact ih8
        · rcases hcase with ⟨h1, h2, h3⟩ | ⟨h1, h2, h3⟩
          · rw [List.filter_cons, if_neg (by simp [h1])]
            exact ih16
          · rw [List.filter_cons, if_pos (by simp [h1])]
            rw [List.pairwise_cons]
            refine ⟨?_, ih16⟩
            intro x hx
            obtain ⟨hxm, hx16⟩ := List.mem_filter.mp hx
            rcases ihB x hxm with ⟨hx8, -⟩ | ⟨-, hxv⟩
            · rw [hx8] at hx16
              simp at hx16
            · omega
        · rw [List.pairwise_cons]
          refine ⟨?_, ihD⟩
          intro x hx
          rcases hcase with ⟨h1, h2, h3⟩ | ⟨h1, h2, h3⟩
          · rcases ihB x hx with ⟨-, hxv⟩ | ⟨hx16, -⟩
            · intro he
              rw [← he] at hxv
              omega
            · intro he
              subst he
              exact absurd (h1.symm.trans hx16) (by decide)
          · rcases ihB x hx with ⟨hx8, -⟩ | ⟨-, hxv⟩
            · intro he
              subst he
              exact absurd (h1.symm.trans hx8) (by decide)
            · intro he
              rw [← he] at hxv
              omega

/-- Claim C2: at every synthesis step whose instruction name matches an
extension group `g`, if the carried group is non-empty and differs from
`g` then `index` is incremented and `sub_index` reset to `0` before the
assignment; the assigned discriminant is two-byte with big-endian byte
pair `(index, sub_index)` (value `index * 256 + sub_index` after the
adjustment); afterwards the carried group becomes `g` and `sub_index` is
incremented. -/
theorem spec_c2 (st : SynthState) (nm ext : String) (d : Disc)
    (st2 : SynthState) (hm : extension_match nm = some ext)
    (hs : fix_step st nm = some (d, st2)) :
    (st.parent_extension ≠ "" → st.parent_extension ≠ ext →
      (switch_adjust st ext).index = st.index + 1 ∧
      (switch_adjust st ext).sub_index = 0) ∧
    d.dty = "u16" ∧
    d.value = (switch_adjust st ext).index * 256 + (switch_adjust st ext).sub_index ∧
    st2.index = (switch_adjust st ext).index ∧
    st2.sub_index = (switch_adjust st ext).sub_index + 1 ∧
    st2.parent_extension = ext := by
  unfold fix_step at hs
  rw [hm] at hs
  dsimp only at hs
  split at hs
  · rename_i hi lo h1 h2
    obtain ⟨hle1, rfl⟩ := int_to_bytes_1_some h1
    obtain ⟨hle2, rfl⟩ := int_to_bytes_1_some h2
    simp only [Option.some.injEq, Prod.mk.injEq] at hs
    obtain ⟨rfl, rfl⟩ := hs
    refine ⟨?_, rfl, rfl, rfl, rfl, rfl⟩
    intro h1' h2'
    unfold switch_adjust
    rw [if_pos ⟨h1', h2'⟩]
    exact ⟨rfl, rfl⟩
  · simp at hs

/-- Claim C2 witness: a concrete group switch, from carried group
`bExtension` with counters `(1, 3)` to group `aExtension`: the assigned
value is `2 * 256 + 0 = 512`. -/
theorem spec_c2_witness :
    (⟨"u16", 512⟩ : Disc).value
      = (switch_adjust ⟨1, 3, "bExtension"⟩ "aExtension").index * 256
        + (switch_adjust ⟨1, 3, "bExtension"⟩ "aExtension").sub_index :=
  (spec_c2 ⟨1, 3, "bExtension"⟩ "aExtensionX" "aExtension" ⟨"u16", 512⟩
    ⟨2, 1, "aExtension"⟩ (by decide) (by decide)).2.2.1

/-- Claim C9: during one synthesis pass the `index` counter never
decreases; the one-byte (`u8`) values assigned to non-extension
instructions are strictly increasing in document order, and all
synthesized discriminants, width tag included, are pairwise distinct. -/
theorem spec_c9 (instrs out : List RawInstr)
    (h : fix_instructions_discriminants instrs = some out) :
    (∀ (st : SynthState) (nm : String) (d : Disc) (st2 : SynthState),
        fix_step st nm = some (d, st2) → st.index ≤ st2.index) ∧
    (((discs_of out).filter (fun x => x.dty == "u8")).map Disc.value).Pairwise (· < ·) ∧
    (discs_of out).Nodup := by
  obtain ⟨-, h8, -, hD⟩ := fix_go_sound instrs ⟨0, 0, ""⟩ out (by simp) h
  refine ⟨fun st nm d st2 hs => fix_step_index_mono hs, ?_, ?_⟩
  · rw [List.pairwise_map]
    exact h8
  · exact hD

/-- Claim C9 witness: the discriminants synthesized for the four-entry
worked example are pairwise distinct. -/
theorem spec_c9_witness :
    (discs_of [⟨"initialize", some ⟨"u8", 0⟩⟩, ⟨"mintToExtensionBurn", some ⟨"u16", 256⟩⟩,
      ⟨"mintToExtensionMint", some ⟨"u16", 257⟩⟩,
      ⟨"closeAccount", some ⟨"u8", 2⟩⟩]).Nodup :=
  (spec_c9
    [⟨"initialize", none⟩, ⟨"mintToExtensionBurn", none⟩,
     ⟨"mintToExtensionMint", none⟩, ⟨"closeAccount", none⟩]
    [⟨"initialize", some ⟨"u8", 0⟩⟩, ⟨"mintToExtensionBurn", some ⟨"u16", 256⟩⟩,
     ⟨"mintToExtensionMint", some ⟨"u16", 257⟩⟩, ⟨"closeAccount", some ⟨"u8", 2⟩⟩]
    (by decide)).2.2

end AnchorpyIdl
